import Mathlib

/-!
Verification of the notion-html-to-anki-csv converter (src/converter.py)
against its natural-language specification.

The Python source is shallowly embedded: the mutable BeautifulSoup tag tree
becomes the inductive type `Node` (built mutually with `NodeList`), attribute
dictionaries become ordered association lists (`Attrs`), and every in-place
mutation of the source becomes a pure function returning the updated value.
String-level helpers (strip, split, replace, regex fragments) are modelled
over `List Char` with structural or fuel-based recursion so that all
definitions evaluate inside the kernel.

Python specifics kept by the embedding: `str.strip()` uses the six ASCII
whitespace characters; `re.split` and `re.sub` semantics are reproduced for
the concrete patterns the source uses; `re.match` patterns ending in `$` also
accept one trailing newline; Python truthiness of attribute values (empty
string and empty list are falsy) is modelled by `AttrVal.truthy`.
-/

namespace NotionConv

/-! ## Character and string helpers (models of the Python string operations) -/

/-- The apostrophe character, built numerically. -/
def sQuote : Char := Char.ofNat 39

/-- The backtick character, built numerically. -/
def btick : Char := Char.ofNat 96

/-- Python whitespace for `str.strip()` and the regex class `\s`
(ASCII range: space, tab, newline, carriage return, vertical tab, form feed). -/
def pyIsSpace (c : Char) : Bool :=
  c = ' ' || c = '\t' || c = '\n' || c = '\r' || c = Char.ofNat 11 || c = Char.ofNat 12

/-- Model of Python `str.strip()` on character lists. -/
def pyStripL (l : List Char) : List Char :=
  ((l.dropWhile pyIsSpace).reverse.dropWhile pyIsSpace).reverse

/-- Model of Python `str.strip()`. -/
def pyStrip (s : String) : String :=
  ⟨pyStripL s.data⟩

/-- Model of Python `str.rstrip(";")`: remove all trailing semicolons. -/
def rstripSemi (s : String) : String :=
  ⟨(s.data.reverse.dropWhile (· = ';')).reverse⟩

/-- Boolean string prefix test. -/
def strStartsWith (s p : String) : Bool :=
  p.data.isPrefixOf s.data

/-- Boolean string suffix test (models Python `str.endswith`). -/
def strEndsWith (s p : String) : Bool :=
  p.data.reverse.isPrefixOf s.data.reverse

/-- Boolean substring test (models the Python `in` operator on strings). -/
def containsSub (s pat : String) : Bool :=
  s.data.tails.any (fun t => pat.data.isPrefixOf t)

/-- ASCII lower-casing of one character (models `str.lower()` on the
ASCII headers the table locator reads). -/
def asciiLowerChar (c : Char) : Char :=
  if 65 ≤ c.toNat ∧ c.toNat ≤ 90 then Char.ofNat (c.toNat + 32) else c

/-- ASCII lower-casing of a string. -/
def lowerStr (s : String) : String :=
  ⟨s.data.map asciiLowerChar⟩

/-- Cons a character onto the first piece of a split result. -/
def consHead (c : Char) : List (List Char) → List (List Char)
  | [] => [[c]]
  | h :: t => (c :: h) :: t

/-- Model of Python `str.split(";")` restricted to the single-character
separator the source uses: split at every semicolon, keeping empty pieces. -/
def splitSemisL : List Char → List (List Char)
  | [] => [[]]
  | c :: rest => if c = ';' then [] :: splitSemisL rest else consHead c (splitSemisL rest)

/-- String-valued version of `splitSemisL`. -/
def splitSemis (s : String) : List String :=
  (splitSemisL s.data).map String.mk

/-- Join a list of strings with a separator (model of `sep.join(...)`). -/
def joinSep (sep : String) : List String → String
  | [] => ""
  | [x] => x
  | x :: y :: rest => x ++ sep ++ joinSep sep (y :: rest)

/-- Fuel-based model of Python `str.replace(pat, rep)`: leftmost,
non-overlapping replacement.  The fuel only needs to exceed the input
length; `strReplace` supplies it. -/
def replaceF (pat rep : List Char) : Nat → List Char → List Char
  | 0, l => l
  | _ + 1, [] => []
  | fuel + 1, c :: rest =>
    if pat ≠ [] ∧ pat.isPrefixOf (c :: rest) then
      rep ++ replaceF pat rep fuel (rest.drop (pat.length - 1))
    else
      c :: replaceF pat rep fuel rest

/-- Model of Python `str.replace`. -/
def strReplace (s pat rep : String) : String :=
  ⟨replaceF pat.data rep.data (s.data.length + 1) s.data⟩

/-! ## Data model: the parsed document tree

BeautifulSoup attribute values are strings, except multi-valued attributes
such as `class`, which are lists of tokens. -/

/-- An attribute value: a plain string, or a token list (the `class`
attribute). -/
inductive AttrVal where
  | str (s : String)
  | lst (l : List String)
deriving DecidableEq, Repr

/-- Python truthiness of an attribute value (`if href:`): empty string and
empty list are falsy. -/
def AttrVal.truthy : AttrVal → Bool
  | .str s => s ≠ ""
  | .lst l => l ≠ []

/-- An ordered attribute dictionary, as kept by the parser. -/
abbrev Attrs := List (String × AttrVal)

mutual
/-- A node of the parsed markup tree: a text node or an element with a tag
name, attributes and children. -/
inductive Node where
  | text (s : String)
  | elem (tag : String) (attrs : Attrs) (children : NodeList)
deriving Repr
/-- Children of an element, as a purpose-built list so that all tree
recursions are structural. -/
inductive NodeList where
  | nil
  | cons (n : Node) (ns : NodeList)
deriving Repr
end

/-- Build a `NodeList` from a `List Node` (notation helper for trees). -/
def nodes : List Node → NodeList
  | [] => .nil
  | n :: ns => .cons n (nodes ns)

/-- First attribute value stored under a key (dictionary lookup). -/
def getAttr : Attrs → String → Option AttrVal
  | [], _ => none
  | (k, v) :: rest, key => if k = key then some v else getAttr rest key

/-- Write an attribute: replace the value in place if the key exists
(keeping its position, as a Python dict does), else append it. -/
def setAttr : Attrs → String → AttrVal → Attrs
  | [], key, v => [(key, v)]
  | (k, w) :: rest, key, v =>
    if k = key then (k, v) :: rest else (k, w) :: setAttr rest key v

/-- Remove an attribute (model of `el.attrs.pop(key, None)`). -/
def popAttr : Attrs → String → Attrs
  | [], _ => []
  | (k, w) :: rest, key => if k = key then rest else (k, w) :: popAttr rest key

/-- Model of `el.get("class", [])`: the token list of the class attribute,
empty when absent. -/
def getClasses (a : Attrs) : List String :=
  match getAttr a "class" with
  | some (.lst l) => l
  | _ => []

/-- Model of `el.get("style", "")`: the style string, empty when absent
(bs4 stores `style` as a plain string). -/
def styleStr (a : Attrs) : String :=
  match getAttr a "style" with
  | some (.str s) => s
  | _ => ""

/-- Attribute dictionaries have pairwise distinct keys (they model Python
dicts). -/
abbrev keysNodup (a : Attrs) : Prop :=
  (a.map Prod.fst).Nodup

/-! ## Static tables of the source -/

/-- CSS_COLOR_MAP from the source: Notion color keys to CSS color keywords. -/
def CSS_COLOR_MAP : List (String × String) :=
  [("default", "black"), ("gray", "gray"), ("brown", "saddlebrown"),
   ("orange", "orange"), ("yellow", "gold"), ("teal", "teal"),
   ("blue", "blue"), ("purple", "purple"), ("pink", "deeppink"),
   ("red", "red")]

/-- Lookup in the color table (model of `CSS_COLOR_MAP.get(key)`). -/
def cssGet : List (String × String) → String → Option String
  | [], _ => none
  | (k, v) :: rest, key => if k = key then some v else cssGet rest key

/-- ALLOWED_TAGS from the source. -/
def ALLOWED_TAGS : List String :=
  ["strong", "b", "em", "i", "u", "code", "pre", "span", "br",
   "ul", "ol", "li", "a", "div"]

/-! ## merge_style -/

/-- String-level core of `merge_style`: the new style value produced from
the existing style string and the new rules. -/
def mergeStyleVal (old new_rules : String) : String :=
  let existing := rstripSemi (pyStrip old)
  if existing ≠ "" then existing ++ ";" ++ new_rules else new_rules

/-- Model of `merge_style(el, new_rules)`: write the merged style back to
the element attributes. -/
def merge_style (a : Attrs) (new_rules : String) : Attrs :=
  setAttr a "style" (.str (mergeStyleVal (styleStr a) new_rules))

/-! ## convert_color_classes_to_inline -/

/-- Key characters accepted by the regex fragment `[a-z_]`. -/
def isLowerKeyChar (c : Char) : Bool :=
  (97 ≤ c.toNat && c.toNat ≤ 122) || c = '_'

/-- Match the regex fragment `([a-z_]+)$` against the remainder of a class
token.  Python `$` also matches just before one trailing newline, so a
single trailing newline is tolerated and excluded from the captured key. -/
def keyMatch (r : List Char) : Option (List Char) :=
  if r ≠ [] ∧ r.all isLowerKeyChar then some r
  else
    match r.reverse with
    | '\n' :: restRev =>
      let body := restRev.reverse
      if body ≠ [] ∧ body.all isLowerKeyChar then some body else none
    | _ => none

/-- Drop an exact prefix, returning the remainder on success. -/
def dropPre : List Char → List Char → Option (List Char)
  | [], s => some s
  | _ :: _, [] => none
  | p :: ps, c :: cs => if p = c then dropPre ps cs else none

/-- Model of `re.match(r"(?:highlight|block-color)-([a-z_]+)$", cls)`,
returning the captured key. -/
def colorClassKey (cls : String) : Option String :=
  match dropPre "highlight-".data cls.data with
  | some r => (keyMatch r).map String.mk
  | none =>
    match dropPre "block-color-".data cls.data with
    | some r => (keyMatch r).map String.mk
    | none => none

/-- One pass of the loop body of `convert_color_classes_to_inline` over the
snapshot of the class list: the state is the live class list plus the
element attributes (through which `merge_style` writes). -/
def ccLoop : List String → List String × Attrs → List String × Attrs
  | [], st => st
  | cls :: rest, (cs, a) =>
    match colorClassKey cls with
    | none => ccLoop rest (cs, a)
    | some key =>
      let a2 :=
        if ¬ strEndsWith key "_background" then
          match cssGet CSS_COLOR_MAP key with
          | some col => merge_style a ("color:" ++ col)
          | none => a
        else a
      ccLoop rest (cs.erase cls, a2)

/-- Model of `convert_color_classes_to_inline(el)` acting on the attribute
dictionary of one element. -/
def convert_color_classes_to_inline (a : Attrs) : Attrs :=
  let classes := getClasses a
  if classes = [] then a
  else
    let r := ccLoop classes (classes, a)
    if r.1 ≠ [] then setAttr r.2 "class" (.lst r.1) else popAttr r.2 "class"

/-! ## Visible text extraction

Models the external bs4 capability `tag.get_text(sep, strip=True)`: collect
all descendant text nodes in document order, strip each, drop the ones that
become empty, and join with the separator. -/

mutual
/-- All text node contents of a subtree in document order. -/
def textStringsN : Node → List String
  | .text s => [s]
  | .elem _ _ cs => textStringsL cs
/-- All text node contents of a node list in document order. -/
def textStringsL : NodeList → List String
  | .nil => []
  | .cons n ns => textStringsN n ++ textStringsL ns
end

/-- Modelled from the spec: the external HTML-tree collaborator operation
`get_text(sep, strip=True)` (bs4), returning the collapsed, trimmed visible
text of a subtree. -/
def get_text (n : Node) (sep : String) : String :=
  joinSep sep (((textStringsN n).map pyStrip).filter (· ≠ ""))

/-! ## tags_from_cell -/

/-- The delimiter class of `re.split(r"[,;\n]+", raw)`. -/
def isTagDelim (c : Char) : Bool :=
  c = ',' || c = ';' || c = '\n'

/-- Fuel-based split on maximal runs of delimiter characters (the semantics
of `re.split` with a `+`-quantified character class).  `splitRunsBy`
supplies sufficient fuel. -/
def splitRunsByF (p : Char → Bool) : Nat → List Char → List (List Char)
  | 0, l => [l]
  | fuel + 1, l =>
    let piece := l.takeWhile (fun c => ¬ p c)
    match l.dropWhile (fun c => ¬ p c) with
    | [] => [piece]
    | _ :: rest => piece :: splitRunsByF p fuel (rest.dropWhile p)

/-- Split a character list on maximal runs of characters satisfying `p`. -/
def splitRunsBy (p : Char → Bool) (l : List Char) : List (List Char) :=
  splitRunsByF p (l.length + 1) l

/-- Model of `re.split(r"[,;\n]+", raw)`. -/
def reSplitDelims (raw : String) : List String :=
  (splitRunsBy isTagDelim raw.data).map String.mk

/-- Model of `re.sub(r"\s+", "-", tok)`: every maximal whitespace run
becomes one dash. -/
def collapseWsDash : List Char → List Char
  | [] => []
  | [c] => if pyIsSpace c then ['-'] else [c]
  | c :: d :: rest =>
    if pyIsSpace c then
      if pyIsSpace d then collapseWsDash (d :: rest)
      else '-' :: collapseWsDash (d :: rest)
    else c :: collapseWsDash (d :: rest)

/-- Model of Python `str.strip(",;")`. -/
def stripCommaSemi (s : String) : String :=
  ⟨((s.data.dropWhile fun c => c = ',' || c = ';').reverse.dropWhile
      fun c => c = ',' || c = ';').reverse⟩

/-- The per-token rewrite of the tag loop body:
`re.sub(r"\s+", "-", tok.strip()).strip(",;")`. -/
def tagTransform (tok : String) : String :=
  stripCommaSemi ⟨collapseWsDash (pyStrip tok).data⟩

/-- The initial token list of `tags_from_cell`:
`[t.strip() for t in re.split(r"[,;\n]+", raw) if t.strip()]`. -/
def tagTokens (raw : String) : List String :=
  ((reSplitDelims raw).map pyStrip).filter (· ≠ "")

/-- The dedup loop of `tags_from_cell`: transform each token, keep it when
nonempty and unseen.  The `seen` set is modelled as the list of kept
tokens seen so far (only membership is used). -/
def tagDedupLoop : List String → List String → List String
  | [], _ => []
  | t :: ts, seen =>
    let tok := tagTransform t
    if tok ≠ "" ∧ tok ∉ seen then tok :: tagDedupLoop ts (tok :: seen)
    else tagDedupLoop ts seen

/-- The deduplicated clean token list produced by `tags_from_cell`. -/
def cleanTags (raw : String) : List String :=
  tagDedupLoop (tagTokens raw) []

/-- Model of `tags_from_cell(cell)`. -/
def tags_from_cell (cell : Node) : String :=
  joinSep " " (cleanTags (get_text cell " "))

/-- Modelled from the spec: first-seen-order deduplication by exact string
equality (spec 4.4 step 5).  Used as the specification side of the
refinement proof about the dedup loop. -/
def firstSeenDedup : List String → List String
  | [] => []
  | x :: xs => x :: firstSeenDedup (xs.filter (· ≠ x))
termination_by l => l.length
decreasing_by
  simp only [List.length_cons]
  exact Nat.lt_succ_of_le (List.length_filter_le _ _)

/-! ## The rich-mode sanitizer tree passes -/

/-- Apply a rewrite to the children of a cell (the source loops run over
`cell.find_all(...)`, which yields descendants only, never the cell
itself). -/
def mapChildren (f : NodeList → NodeList) : Node → Node
  | .text s => .text s
  | .elem t a cs => .elem t a (f cs)

mutual
/-- Mark neutralization: every `mark` element is retagged to `span` and run
through the color-class resolver (source loop over `cell.find_all("mark")`). -/
def markPassN : Node → Node
  | .text s => .text s
  | .elem t a cs =>
    if t = "mark" then .elem "span" (convert_color_classes_to_inline a) (markPassL cs)
    else .elem t a (markPassL cs)
/-- List version of `markPassN`. -/
def markPassL : NodeList → NodeList
  | .nil => .nil
  | .cons n ns => .cons (markPassN n) (markPassL ns)
end

mutual
/-- Span color resolution: every `span` element is run through the
color-class resolver (source loop over `cell.find_all("span")`). -/
def spanPassN : Node → Node
  | .text s => .text s
  | .elem t a cs =>
    if t = "span" then .elem t (convert_color_classes_to_inline a) (spanPassL cs)
    else .elem t a (spanPassL cs)
/-- List version of `spanPassN`. -/
def spanPassL : NodeList → NodeList
  | .nil => .nil
  | .cons n ns => .cons (spanPassN n) (spanPassL ns)
end

/-- Anchor pruning of one attribute dictionary:
`href = a.get("href"); a.attrs = {"href": href} if href else {}`. -/
def anchorAttrs (a : Attrs) : Attrs :=
  match getAttr a "href" with
  | some v => if v.truthy then [("href", v)] else []
  | none => []

mutual
/-- Anchor pruning over the tree (source loop over `cell.find_all("a")`). -/
def anchorPassN : Node → Node
  | .text s => .text s
  | .elem t a cs =>
    if t = "a" then .elem t (anchorAttrs a) (anchorPassL cs)
    else .elem t a (anchorPassL cs)
/-- List version of `anchorPassN`. -/
def anchorPassL : NodeList → NodeList
  | .nil => .nil
  | .cons n ns => .cons (anchorPassN n) (anchorPassL ns)
end

mutual
/-- Disallowed-tag removal: elements not in ALLOWED_TAGS are unwrapped,
splicing their (recursively unwrapped) children into their position
(source loop `tag.unwrap()` over the snapshot `list(cell.find_all(True))`;
the snapshot loop and this recursive splice produce the same tree). -/
def unwrapN : Node → List Node
  | .text s => [.text s]
  | .elem t a cs =>
    let inner := unwrapL cs
    if t ∈ ALLOWED_TAGS then [.elem t a (nodes inner)] else inner
/-- List version of `unwrapN`. -/
def unwrapL : NodeList → List Node
  | .nil => []
  | .cons n ns => unwrapN n ++ unwrapL ns
end

/-! ## Background-color stripping (source lines 92 to 99 and 116 to 123) -/

/-- The style declarations kept by the stripper: split on `;`, drop pieces
whose stripped form starts with `background-color`, then drop blank
pieces (the source filters in that order). -/
def keptStyleDecls (s : String) : List String :=
  ((splitSemis s).filter
      (fun p => ¬ strStartsWith (pyStrip p) "background-color")).filter
    (fun p => pyStrip p ≠ "")

/-- The rewritten style value: kept declarations joined by `;`. -/
def stripBgStyle (s : String) : String :=
  joinSep ";" (keptStyleDecls s)

/-- One element of the background-stripping loop: when a style attribute is
present, rewrite it (the attribute is written back even when the result is
the empty string). -/
def bgStripAttrs (a : Attrs) : Attrs :=
  if (getAttr a "style").isSome then setAttr a "style" (.str (stripBgStyle (styleStr a)))
  else a

mutual
/-- Background stripping over a whole subtree including its root element
(the fenced-block path runs `find_all(True)` on a fragment soup, reaching
every element of the fragment). -/
def bgPassN : Node → Node
  | .text s => .text s
  | .elem t a cs => .elem t (bgStripAttrs a) (bgPassL cs)
/-- List version of `bgPassN`. -/
def bgPassL : NodeList → NodeList
  | .nil => .nil
  | .cons n ns => .cons (bgPassN n) (bgPassL ns)
end

/-! ## Serialization

Models the external bs4 serialization (`decode_contents`) with the minimal
formatter of the html.parser builder: text escapes `&`, `<`, `>`; attribute
values additionally escape double quotes; void elements self-close. -/

/-- Minimal entity escaping of text content. -/
def escText (s : String) : String :=
  strReplace (strReplace (strReplace s "&" "&amp;") "<" "&lt;") ">" "&gt;"

/-- Minimal entity escaping of an attribute value. -/
def escAttrVal (s : String) : String :=
  strReplace (escText s) "\"" "&quot;"

/-- Render an attribute value (class token lists join with spaces). -/
def attrValStr : AttrVal → String
  | .str s => s
  | .lst l => joinSep " " l

/-- Render an attribute dictionary. -/
def serAttrs : Attrs → String
  | [] => ""
  | (k, v) :: rest => " " ++ k ++ "=\"" ++ escAttrVal (attrValStr v) ++ "\"" ++ serAttrs rest

/-- The void (empty-element) tags of the html.parser tree builder. -/
def VOID_TAGS : List String :=
  ["area", "base", "br", "col", "embed", "hr", "img", "input", "keygen",
   "link", "menuitem", "meta", "param", "source", "track", "wbr"]

mutual
/-- Serialize one node. -/
def serN : Node → String
  | .text s => escText s
  | .elem t a cs =>
    if t ∈ VOID_TAGS then "<" ++ t ++ serAttrs a ++ "/>"
    else "<" ++ t ++ serAttrs a ++ ">" ++ serL cs ++ "</" ++ t ++ ">"
/-- Serialize a node list. -/
def serL : NodeList → String
  | .nil => ""
  | .cons n ns => serN n ++ serL ns
end

/-- Serialize a plain list of nodes. -/
def serMany : List Node → String
  | [] => ""
  | n :: ns => serN n ++ serMany ns

/-- Model of `cell.decode_contents()`: the serialized inner markup. -/
def decode_contents : Node → String
  | .text s => escText s
  | .elem _ _ cs => serL cs

/-! ## Fragment parsing

Modelled from the spec: the external HTML-parsing collaborator
(`BeautifulSoup(inner, "html.parser")`), which the fenced-code step uses to
re-parse serialized markup.  A total, fuel-based recursive-descent reader of
the well-formed fragments the pipeline itself produces; malformed input
degrades by skipping unparseable pieces. -/

/-- Characters allowed in tag and attribute names. -/
def isNameChar (c : Char) : Bool :=
  (97 ≤ c.toNat && c.toNat ≤ 122) || (65 ≤ c.toNat && c.toNat ≤ 90) ||
    (48 ≤ c.toNat && c.toNat ≤ 57) || c = '-' || c = '_' || c = ':'

/-- Undo the minimal entity escaping. -/
def unescapeHtml (s : String) : String :=
  strReplace (strReplace (strReplace (strReplace s "&lt;" "<") "&gt;" ">") "&quot;" "\"")
    "&amp;" "&"

/-- Build one parsed attribute; `class` values are tokenized on whitespace
as bs4 does for multi-valued attributes. -/
def mkAttr (name v : String) : String × AttrVal :=
  if name = "class" then
    (name, .lst (((splitRunsBy pyIsSpace (unescapeHtml v).data).map String.mk).filter (· ≠ "")))
  else (name, .str (unescapeHtml v))

/-- Parse a run of `name="value"` attributes up to the closing `>` or `/>`
of a start tag.  Returns the attributes, the rest of the input, and whether
the tag was self-closing. -/
def parseAttrSeq : Nat → List Char → Attrs × List Char × Bool
  | 0, l => ([], l, false)
  | fuel + 1, l =>
    let l1 := l.dropWhile pyIsSpace
    match l1 with
    | [] => ([], [], false)
    | '>' :: rest => ([], rest, false)
    | '/' :: '>' :: rest => ([], rest, true)
    | c :: cs =>
      let name := (c :: cs).takeWhile isNameChar
      let l2 := (c :: cs).dropWhile isNameChar
      match name, l2 with
      | _ :: _, '=' :: '"' :: valRest =>
        let v := valRest.takeWhile (· ≠ '"')
        let l3 := (valRest.dropWhile (· ≠ '"')).drop 1
        let r := parseAttrSeq fuel l3
        (mkAttr ⟨name⟩ ⟨v⟩ :: r.1, r.2)
      | _, _ =>
        -- unreadable piece: skip one character and continue
        parseAttrSeq fuel cs

/-- Skip a closing tag: an exactly matching `</name>` is consumed; any other
closing tag is skipped to its `>` (a lenient stand-in for the error
recovery of html.parser). -/
def dropClose (name : String) (l : List Char) : List Char :=
  let pat := '<' :: '/' :: name.data ++ ['>']
  if pat.isPrefixOf l then l.drop pat.length
  else l

/-- Parse a sequence of sibling nodes, stopping at end of input or before a
closing tag. -/
def parseNodesF : Nat → List Char → List Node × List Char
  | 0, l => ([], l)
  | _ + 1, [] => ([], [])
  | _ + 1, '<' :: '/' :: rest => ([], '<' :: '/' :: rest)
  | fuel + 1, '<' :: rest =>
    let name := rest.takeWhile isNameChar
    if name = [] then
      let r := parseNodesF fuel rest
      (Node.text "<" :: r.1, r.2)
    else
      let pa := parseAttrSeq fuel (rest.drop name.length)
      let tagName := lowerStr ⟨name⟩
      if pa.2.2 ∨ tagName ∈ VOID_TAGS then
        let r := parseNodesF fuel pa.2.1
        (Node.elem tagName pa.1 .nil :: r.1, r.2)
      else
        let rc := parseNodesF fuel pa.2.1
        let r := parseNodesF fuel (dropClose tagName rc.2)
        (Node.elem tagName pa.1 (nodes rc.1) :: r.1, r.2)
  | fuel + 1, c :: rest =>
    let txt := (c :: rest).takeWhile (· ≠ '<')
    let r := parseNodesF fuel ((c :: rest).dropWhile (· ≠ '<'))
    (Node.text (unescapeHtml ⟨txt⟩) :: r.1, r.2)

/-- Top-level fragment parse; stray closing tags between top-level nodes
are dropped, as html.parser does. -/
def parseFragmentF : Nat → List Char → List Node
  | 0, _ => []
  | fuel + 1, l =>
    match parseNodesF (fuel + 1) l with
    | (ns, []) => ns
    | (ns, '<' :: '/' :: rest) =>
      ns ++ parseFragmentF fuel ((rest.dropWhile (· ≠ '>')).drop 1)
    | (ns, _) => ns

/-- Parse an HTML fragment into its top-level nodes. -/
def parseHtmlFragment (s : String) : List Node :=
  parseFragmentF (s.data.length + 2) s.data

/-! ## Fenced code handling (source lines 108 to 135) -/

/-- The triple-backtick fence marker. -/
def fenceMarker : List Char := [btick, btick, btick]

/-- Split a character list at the leftmost fence marker: returns the piece
before the marker and the piece after it, or none when no marker occurs. -/
def splitAtMarker : List Char → Option (List Char × List Char)
  | [] => none
  | c :: cs =>
    if fenceMarker.isPrefixOf (c :: cs) then some ([], cs.drop 2)
    else (splitAtMarker cs).map (fun p => (c :: p.1, p.2))

/-- The opening of the monospace replacement block, exactly as built by the
source (the font list quotes Courier New with apostrophes). -/
def monoDivOpen : String :=
  "<div style=\"font-family:Menlo,Consolas," ++ String.mk [sQuote] ++ "Courier New"
    ++ String.mk [sQuote] ++ ",monospace; white-space:pre\">"

/-- Model of `fence_replacer`: re-parse the fenced markup, strip background
colors from every element inside, and wrap the result in the monospace
block. -/
def fence_replacer (inner : List Char) : List Char :=
  (monoDivOpen ++ serMany ((parseHtmlFragment ⟨inner⟩).map bgPassN) ++ "</div>").data

/-- Fuel-based model of `re.sub(r"```(.*?)```", fence_replacer, tmp,
flags=re.DOTALL)`: repeatedly take the leftmost opening marker, match it
with the first closing marker after it, replace the region, and continue
after the close; an opening marker with no matching close leaves the rest
of the text unchanged. -/
def fenceSubF : Nat → List Char → List Char
  | 0, s => s
  | fuel + 1, s =>
    match splitAtMarker s with
    | none => s
    | some (pre, rest) =>
      match splitAtMarker rest with
      | none => s
      | some (inner, rest2) => pre ++ fence_replacer inner ++ fenceSubF fuel rest2

/-- The fence substitution with sufficient fuel. -/
def fenceSub (s : List Char) : List Char :=
  fenceSubF (s.length + 1) s

/-! ## sanitize_inline_html -/

/-- Model of `sanitize_inline_html(cell, strip_all)`.  The Python function
mutates the cell and returns a string; the model returns the string
together with the final state of the cell subtree. -/
def sanitize_inline_html (cell : Node) (strip_all : Bool) : String × Node :=
  if strip_all then (get_text cell " ", cell)
  else
    let c1 := mapChildren markPassL cell
    let c2 := mapChildren spanPassL c1
    let c3 := mapChildren anchorPassL c2
    let c4 := mapChildren (fun cs => nodes (unwrapL cs)) c3
    let c5 := mapChildren bgPassL c4
    let html_str := strReplace (strReplace (decode_contents c5) "<br>" "<br/>") "<br />" "<br/>"
    let tmp := strReplace html_str "<br/>" "\n"
    let tmp2 : String := ⟨fenceSub tmp.data⟩
    (strReplace tmp2 "\n" "<br/>", c5)

/-! ## Table locator and conversion orchestrator -/

mutual
/-- All descendant elements with a given tag name, in document order
(model of `find_all(name)`). -/
def findAllN (name : String) : Node → List Node
  | .text _ => []
  | .elem _ _ cs => findAllL name cs
/-- List version of `findAllN`. -/
def findAllL (name : String) : NodeList → List Node
  | .nil => []
  | .cons n ns =>
    (match n with
     | .elem t _ _ => if t = name then [n] else []
     | .text _ => []) ++ findAllN name n ++ findAllL name ns
end

/-- Model of `find(name)`: the first matching descendant. -/
def findFirstTag (name : String) (n : Node) : Option Node :=
  (findAllN name n).head?

/-- The error taxonomy of the conversion.  The source raises RuntimeError
with a message naming the violated expectation; the spec calls these
StructureError.  Each constructor models one message; `indexError` models
the uncaught Python IndexError of an out-of-range cell access. -/
inductive ConvError where
  | missingTable
  | missingThead
  | missingTbody
  | missingColumn (name : String)
  | indexError
deriving DecidableEq, Repr

/-- The column map while headers are being scanned (all roles optional). -/
structure ColMap where
  idIdx : Option Nat
  frontIdx : Option Nat
  backIdx : Option Nat
  tagsIdx : Option Nat
deriving DecidableEq, Repr

/-- The column map after the required-role check (id, front, back present). -/
structure ColMapOk where
  idIdx : Nat
  frontIdx : Nat
  backIdx : Nat
  tagsIdx : Option Nat
deriving DecidableEq, Repr

/-- The header-scanning loop of `parse_table`: matches each header name to
a role; a later match for the same role overwrites an earlier one. -/
def colMapLoop : Nat → List String → ColMap → ColMap
  | _, [], cm => cm
  | idx, name :: rest, cm =>
    let cm2 :=
      if containsSub name "notion-id" then { cm with idIdx := some idx }
      else if name = "front" then { cm with frontIdx := some idx }
      else if name = "back" then { cm with backIdx := some idx }
      else if containsSub name "tags" then { cm with tagsIdx := some idx }
      else cm
    colMapLoop (idx + 1) rest cm2

/-- Build the column map from the lower-cased header texts. -/
def buildColMap (headers : List String) : ColMap :=
  colMapLoop 0 headers ⟨none, none, none, none⟩

/-- The trimmed, lower-cased header cell texts of a header section. -/
def headersOf (thead : Node) : List String :=
  (findAllN "th" thead).map (fun th => lowerStr (get_text th ""))

/-- The required-column check of `parse_table`, in source order
(id, then front, then back). -/
def checkRequired (cm : ColMap) : Except ConvError ColMapOk :=
  match cm.idIdx with
  | none => .error (.missingColumn "id")
  | some i =>
    match cm.frontIdx with
    | none => .error (.missingColumn "front")
    | some f =>
      match cm.backIdx with
      | none => .error (.missingColumn "back")
      | some b => .ok ⟨i, f, b, cm.tagsIdx⟩

/-- Model of `parse_table(soup)`. -/
def parse_table (doc : Node) : Except ConvError (Node × ColMapOk) :=
  match findFirstTag "table" doc with
  | none => .error .missingTable
  | some table =>
    match findFirstTag "thead" table with
    | none => .error .missingThead
    | some thead =>
      match checkRequired (buildColMap (headersOf thead)) with
      | .error e => .error e
      | .ok cm => .ok (table, cm)

/-- One output record (the four fixed CSV fields). -/
structure Record where
  notionId : String
  front : String
  back : String
  tags : String
deriving DecidableEq, Repr

/-- Cell access `tds[i]`: a Python list index raises IndexError when out of
range. -/
def getCell (tds : List Node) (i : Nat) : Except ConvError Node :=
  match tds.get? i with
  | some c => .ok c
  | none => .error .indexError

/-- The record built from one data row, evaluating the cells in source
order (id, front, back, tags). -/
def makeRecord (cm : ColMapOk) (tds : List Node) : Except ConvError Record := do
  let idCell ← getCell tds cm.idIdx
  let frontCell ← getCell tds cm.frontIdx
  let backCell ← getCell tds cm.backIdx
  let tags ←
    match cm.tagsIdx with
    | some ti => do
      let tagsCell ← getCell tds ti
      pure (tags_from_cell tagsCell)
    | none => pure ""
  pure
    { notionId := get_text idCell ""
      front := (sanitize_inline_html frontCell true).1
      back := (sanitize_inline_html backCell false).1
      tags := tags }

/-- The row loop of `convert_file`: rows without any `td` are skipped;
each remaining row contributes one record, in source order. -/
def processRows (cm : ColMapOk) : List Node → Except ConvError (List Record)
  | [] => .ok []
  | tr :: rest =>
    let tds := findAllN "td" tr
    if tds.isEmpty then processRows cm rest
    else do
      let r ← makeRecord cm tds
      let rs ← processRows cm rest
      pure (r :: rs)

/-- Model of `convert_file`: the conversion core from the parsed document
to the record sequence (reading the input file and writing the CSV are the
excluded I/O collaborators). -/
def convert_file (doc : Node) : Except ConvError (List Record) :=
  match parse_table doc with
  | .error e => .error e
  | .ok (table, cm) =>
    match findFirstTag "tbody" table with
    | none => .error .missingTbody
    | some tbody => processRows cm (findAllN "tr" tbody)

/-! ## Auxiliary definitions used by theorem statements -/

/-- The cumulative effect of the class-token removals of the resolver loop:
each matching snapshot token erases its first occurrence from the live
class list. -/
def ccErase : List String → List String → List String
  | [], cs => cs
  | cls :: rest, cs =>
    ccErase rest (if (colorClassKey cls).isSome then cs.erase cls else cs)

/-- The cumulative style effect of the resolver loop over the snapshot of
the class list, token by token in encounter order: a non-matching token
changes nothing; a matching token whose key ends in the background suffix
or is absent from the color table changes nothing; a matching token whose
key is in the color table merges one color declaration. -/
def ccStyleFold : List String → Attrs → Attrs
  | [], a => a
  | cls :: rest, a =>
    match colorClassKey cls with
    | none => ccStyleFold rest a
    | some key =>
      ccStyleFold rest
        (if ¬ strEndsWith key "_background" then
          match cssGet CSS_COLOR_MAP key with
          | some col => merge_style a ("color:" ++ col)
          | none => a
         else a)

/-- The record contributed by one data row when every mapped column index
is in range (the per-row reading the spec describes: id as plain text,
front plain, back rich, tags when mapped). -/
def rowRecord (cm : ColMapOk) (tr : Node) : Option Record :=
  let tds := findAllN "td" tr
  if tds.isEmpty then none
  else
    some
      { notionId := get_text (tds.getD cm.idIdx (Node.text "")) ""
        front := (sanitize_inline_html (tds.getD cm.frontIdx (Node.text "")) true).1
        back := (sanitize_inline_html (tds.getD cm.backIdx (Node.text "")) false).1
        tags :=
          match cm.tagsIdx with
          | some ti => tags_from_cell (tds.getD ti (Node.text ""))
          | none => "" }

/-- A character list containing no fence marker. -/
abbrev noMarker (l : List Char) : Prop :=
  splitAtMarker l = none

/-- A character list in which no fence marker starts, even when the list is
followed by further backticks: the condition under which a marker appended
after `l` is the leftmost one. -/
abbrev cleanBefore (l : List Char) : Prop :=
  splitAtMarker (l ++ [btick, btick]) = none

/-! ## Concrete fixture documents used by witnesses and counterexamples -/

/-- A header row with the given header labels. -/
def thCells (names : List String) : Node :=
  Node.elem "tr" [] (nodes (names.map fun n => Node.elem "th" [] (nodes [Node.text n])))

/-- A data row whose cells hold the given plain texts. -/
def simpleRow (cells : List String) : Node :=
  Node.elem "tr" [] (nodes (cells.map fun c => Node.elem "td" [] (nodes [Node.text c])))

/-- A document with no table element. -/
def docMissingTable : Node :=
  Node.elem "html" [] (nodes [Node.text "x"])

/-- A document whose table has no header section. -/
def docMissingThead : Node :=
  Node.elem "html" [] (nodes [Node.elem "table" [] .nil])

/-- A document whose header row lacks the id column. -/
def docMissingId : Node :=
  Node.elem "html" [] (nodes [Node.elem "table" []
    (nodes [Node.elem "thead" [] (nodes [thCells ["Front", "Back"]])])])

/-- A document with all required headers but no body section. -/
def docMissingTbody : Node :=
  Node.elem "html" [] (nodes [Node.elem "table" []
    (nodes [Node.elem "thead" [] (nodes [thCells ["Notion-ID", "Front", "Back"]])])])

/-- A document whose single data row has one cell, fewer than the mapped
front and back column indices. -/
def docShortRow : Node :=
  Node.elem "html" [] (nodes [Node.elem "table" []
    (nodes [Node.elem "thead" [] (nodes [thCells ["Notion-ID", "Front", "Back"]]),
            Node.elem "tbody" [] (nodes [simpleRow ["only"]])])])

/-! ## Helper lemmas on attribute dictionaries -/

theorem getAttr_setAttr_self (a : Attrs) (k : String) (v : AttrVal) :
    getAttr (setAttr a k v) k = some v := by
  induction a with
  | nil => simp [setAttr, getAttr]
  | cons p rest ih =>
    obtain ⟨k', w⟩ := p
    by_cases h : k' = k
    · simp [setAttr, getAttr, h]
    · simp [setAttr, getAttr, h, ih]

theorem getAttr_setAttr_ne (a : Attrs) (k k' : String) (v : AttrVal) (h : k' ≠ k) :
    getAttr (setAttr a k v) k' = getAttr a k' := by
  induction a with
  | nil => simp [setAttr, getAttr, Ne.symm h]
  | cons p rest ih =>
    obtain ⟨k'', w⟩ := p
    by_cases h2 : k'' = k
    · subst h2
      simp [setAttr, getAttr, Ne.symm h]
    · by_cases h3 : k'' = k'
      · simp [setAttr, getAttr, h2, h3, Ne.symm h, h]
      · simp [setAttr, getAttr, h2, h3, ih]

theorem getAttr_popAttr_ne (a : Attrs) (k k' : String) (h : k' ≠ k) :
    getAttr (popAttr a k) k' = getAttr a k' := by
  induction a with
  | nil => simp [popAttr]
  | cons p rest ih =>
    obtain ⟨k'', w⟩ := p
    by_cases h2 : k'' = k
    · subst h2
      simp [popAttr, getAttr, Ne.symm h]
    · by_cases h3 : k'' = k'
      · simp [popAttr, getAttr, h2, h3, Ne.symm h, h]
      · simp [popAttr, getAttr, h2, h3, ih]

theorem getAttr_none_of_not_mem_keys (a : Attrs) (k : String)
    (h : k ∉ a.map Prod.fst) : getAttr a k = none := by
  induction a with
  | nil => simp [getAttr]
  | cons p rest ih =>
    obtain ⟨k', w⟩ := p
    simp only [List.map_cons, List.mem_cons, not_or] at h
    simp [getAttr, Ne.symm h.1, ih h.2]

theorem getAttr_popAttr_self (a : Attrs) (k : String) (h : keysNodup a) :
    getAttr (popAttr a k) k = none := by
  induction a with
  | nil => simp [popAttr, getAttr]
  | cons p rest ih =>
    obtain ⟨k', w⟩ := p
    unfold keysNodup at h
    simp only [List.map_cons, List.nodup_cons] at h
    by_cases h2 : k' = k
    · subst h2
      simp only [popAttr, if_pos rfl]
      exact getAttr_none_of_not_mem_keys rest k' h.1
    · simp [popAttr, getAttr, h2, ih h.2]

theorem keysNodup_setAttr (a : Attrs) (k : String) (v : AttrVal) (h : keysNodup a) :
    keysNodup (setAttr a k v) := by
  induction a with
  | nil => simp [setAttr, keysNodup]
  | cons p rest ih =>
    obtain ⟨k', w⟩ := p
    unfold keysNodup at h ⊢
    simp only [List.map_cons, List.nodup_cons] at h
    by_cases h2 : k' = k
    · simpa [setAttr, h2] using h
    · have hkeys : (setAttr rest k v).map Prod.fst = if k ∈ rest.map Prod.fst
          then rest.map Prod.fst else rest.map Prod.fst ++ [k] := by
        clear h ih
        induction rest with
        | nil => simp [setAttr]
        | cons q rest2 ih2 =>
          obtain ⟨k'', w'⟩ := q
          by_cases h3 : k'' = k
          · simp [setAttr, h3]
          · simp only [setAttr, h3, if_false, List.map_cons, List.mem_cons, ih2]
            by_cases h4 : k ∈ rest2.map Prod.fst <;>
              simp [h4, Ne.symm h3]
      simp only [setAttr, h2, if_false, List.map_cons, List.nodup_cons]
      refine ⟨?_, ih h.2⟩
      rw [hkeys]
      by_cases h4 : k ∈ rest.map Prod.fst
      · simpa [h4] using h.1
      · simp [h4, h.1, h2]

theorem setAttr_of_getAttr_eq (a : Attrs) (k : String) (v : AttrVal)
    (h : getAttr a k = some v) : setAttr a k v = a := by
  induction a with
  | nil => simp [getAttr] at h
  | cons p rest ih =>
    obtain ⟨k', w⟩ := p
    by_cases h2 : k' = k
    · subst h2
      have h' : w = v := by simpa [getAttr] using h
      simp [setAttr, h']
    · simp only [getAttr, h2, if_false] at h
      simp [setAttr, h2, ih h]

/-! ## Helper lemmas on merge_style and the resolver loop -/

theorem styleStr_merge_style (a : Attrs) (r : String) :
    styleStr (merge_style a r) = mergeStyleVal (styleStr a) r := by
  simp [merge_style, styleStr, getAttr_setAttr_self]

theorem getAttr_merge_style_ne (a : Attrs) (r : String) (k : String) (h : k ≠ "style") :
    getAttr (merge_style a r) k = getAttr a k :=
  getAttr_setAttr_ne a "style" k _ h

theorem keysNodup_merge_style (a : Attrs) (r : String) (h : keysNodup a) :
    keysNodup (merge_style a r) :=
  keysNodup_setAttr a "style" _ h

theorem ccLoop_fst (snap : List String) (cs : List String) (a : Attrs) :
    (ccLoop snap (cs, a)).1 = ccErase snap cs := by
  induction snap generalizing cs a with
  | nil => rfl
  | cons cls rest ih =>
    cases h : colorClassKey cls with
    | none => simp [ccLoop, ccErase, h, ih]
    | some key => simp [ccLoop, ccErase, h, ih]

theorem ccLoop_snd_getAttr_ne (snap : List String) (cs : List String) (a : Attrs)
    (k : String) (h : k ≠ "style") :
    getAttr (ccLoop snap (cs, a)).2 k = getAttr a k := by
  induction snap generalizing cs a with
  | nil => rfl
  | cons cls rest ih =>
    cases hc : colorClassKey cls with
    | none => simp [ccLoop, hc, ih]
    | some key =>
      simp only [ccLoop, hc]
      rw [ih]
      by_cases hb : strEndsWith key "_background"
      · simp [hb]
      · cases hcol : cssGet CSS_COLOR_MAP key with
        | none => simp [hb, hcol]
        | some col => simp [hb, hcol, getAttr_merge_style_ne _ _ _ h]

theorem ccLoop_snd_nodup (snap : List String) (cs : List String) (a : Attrs)
    (h : keysNodup a) : keysNodup (ccLoop snap (cs, a)).2 := by
  induction snap generalizing cs a with
  | nil => exact h
  | cons cls rest ih =>
    cases hc : colorClassKey cls with
    | none => simp only [ccLoop, hc]; exact ih _ _ h
    | some key =>
      simp only [ccLoop, hc]
      apply ih
      by_cases hb : strEndsWith key "_background"
      · simpa [hb] using h
      · cases hcol : cssGet CSS_COLOR_MAP key with
        | none => simpa [hb, hcol] using h
        | some col => simpa [hb, hcol] using keysNodup_merge_style a _ h

theorem ccLoop_nomatch (snap : List String) (cs : List String) (a : Attrs)
    (h : ∀ c ∈ snap, colorClassKey c = none) : ccLoop snap (cs, a) = (cs, a) := by
  induction snap with
  | nil => rfl
  | cons cls rest ih =>
    have h1 : colorClassKey cls = none := h cls (by simp)
    simp only [ccLoop, h1]
    exact ih fun c hc => h c (by simp [hc])

theorem ccErase_cons_of_none (c : String) (hc : colorClassKey c = none) :
    ∀ (snap cs : List String), ccErase snap (c :: cs) = c :: ccErase snap cs := by
  intro snap
  induction snap with
  | nil => intro cs; rfl
  | cons cls rest ih =>
    intro cs
    cases h : colorClassKey cls with
    | none => simp [ccErase, h, ih]
    | some key =>
      have hne : (c == cls) = false := by
        rw [beq_eq_false_iff_ne]
        intro he
        rw [he, h] at hc
        exact Option.noConfusion hc
      simp [ccErase, h, List.erase_cons, hne, ih]

theorem ccErase_self (cs : List String) :
    ccErase cs cs = cs.filter (fun c => (colorClassKey c).isNone) := by
  induction cs with
  | nil => rfl
  | cons c t ih =>
    cases hc : colorClassKey c with
    | none =>
      simp only [ccErase, hc, Option.isSome_none, Bool.false_eq_true, if_false,
        List.filter_cons]
      rw [ccErase_cons_of_none c hc, ih]
      simp [hc]
    | some key =>
      have he : (c :: t).erase c = t := by
        simp [List.erase_cons]
      simp only [ccErase, hc, Option.isSome_some, if_true, he, ih, List.filter_cons]
      simp [hc]

theorem getClasses_setAttr_class (a : Attrs) (l : List String) :
    getClasses (setAttr a "class" (.lst l)) = l := by
  simp [getClasses, getAttr_setAttr_self]

theorem getClasses_of_getAttr_none (a : Attrs) (h : getAttr a "class" = none) :
    getClasses a = [] := by
  simp [getClasses, h]

/-- The class list left by the resolver: exactly the tokens the pattern does
not match, in order. -/
theorem conv_color_classes (a : Attrs) (h : keysNodup a) :
    getClasses (convert_color_classes_to_inline a)
      = (getClasses a).filter (fun c => (colorClassKey c).isNone) := by
  unfold convert_color_classes_to_inline
  by_cases h0 : getClasses a = []
  · simp [h0]
  · simp only [h0, if_false]
    have hfst := ccLoop_fst (getClasses a) (getClasses a) a
    rw [ccErase_self] at hfst
    by_cases h1 : (ccLoop (getClasses a) (getClasses a, a)).1 = []
    · simp only [h1, ne_eq, not_true_eq_false, if_false]
      rw [h1] at hfst
      rw [← hfst]
      exact getClasses_of_getAttr_none _
        (getAttr_popAttr_self _ _ (ccLoop_snd_nodup _ _ _ h))
    · simp only [h1, ne_eq, not_false_eq_true, if_true]
      rw [getClasses_setAttr_class, hfst]

/-- An element with no class list (or an empty one) is returned unchanged. -/
theorem conv_color_classes_of_no_classes (a : Attrs) (h : getClasses a = []) :
    convert_color_classes_to_inline a = a := by
  simp [convert_color_classes_to_inline, h]

/-- The branch shape of the resolver on an element with a nonempty class
list. -/
theorem conv_color_classes_shape (a : Attrs) (h0 : ¬ getClasses a = []) :
    convert_color_classes_to_inline a =
      if (ccLoop (getClasses a) (getClasses a, a)).1 ≠ [] then
        setAttr (ccLoop (getClasses a) (getClasses a, a)).2 "class"
          (.lst (ccLoop (getClasses a) (getClasses a, a)).1)
      else popAttr (ccLoop (getClasses a) (getClasses a, a)).2 "class" := by
  unfold convert_color_classes_to_inline
  simp only [h0, if_false]

/-- Reading the style of an element is unaffected by removing its class
attribute. -/
theorem styleStr_popAttr_class (a : Attrs) :
    styleStr (popAttr a "class") = styleStr a := by
  simp [styleStr, getAttr_popAttr_ne a "class" "style" (by decide)]

/-- Reading the style of an element is unaffected by rewriting its class
attribute. -/
theorem styleStr_setAttr_class (a : Attrs) (v : AttrVal) :
    styleStr (setAttr a "class" v) = styleStr a := by
  simp [styleStr, getAttr_setAttr_ne a "class" "style" v (by decide)]

/-- The attribute component of the resolver loop is the encounter-order
style fold over the snapshot (the class-list removals never feed back into
the style effect). -/
theorem ccLoop_snd_eq_fold (snap : List String) :
    ∀ (cs : List String) (a : Attrs), (ccLoop snap (cs, a)).2 = ccStyleFold snap a := by
  induction snap with
  | nil => intro cs a; rfl
  | cons cls rest ih =>
    intro cs a
    cases hc : colorClassKey cls with
    | none => simp [ccLoop, ccStyleFold, hc, ih]
    | some key => simp [ccLoop, ccStyleFold, hc, ih]

/-- The style of any element after the resolver equals the style after the
encounter-order fold of its class snapshot (regardless of how the class
attribute itself is rewritten or removed afterwards). -/
theorem conv_color_classes_style (a : Attrs) :
    styleStr (convert_color_classes_to_inline a)
      = styleStr (ccStyleFold (getClasses a) a) := by
  by_cases h0 : getClasses a = []
  · rw [conv_color_classes_of_no_classes a h0, h0]
    rfl
  · rw [conv_color_classes_shape a h0]
    by_cases h1 : (ccLoop (getClasses a) (getClasses a, a)).1 = []
    · rw [if_neg (fun hn => hn h1), styleStr_popAttr_class, ccLoop_snd_eq_fold]
    · rw [if_pos h1, styleStr_setAttr_class, ccLoop_snd_eq_fold]

/-! ## Claims C4, C5, C6 -/

/-- Counterexample to claim C4 as stated.  The token `highlight-red2`
consists of the prefix `highlight`, the separator, and a key that is a
lowercase alphanumeric string (it contains the digit 2), so the claim
asserts that the resolver removes it from the class list; the code
(whose pattern is `[a-z_]+`, without digits) leaves the element
completely unchanged. -/
theorem claim_C4_counterexample :
    ("red2".data ≠ [] ∧ "red2".data.all (fun c =>
        (97 ≤ c.toNat ∧ c.toNat ≤ 122) ∨ (48 ≤ c.toNat ∧ c.toNat ≤ 57) ∨ c = '_') = true) ∧
    ("highlight-red2" : String) = "highlight-" ++ "red2" ∧
    convert_color_classes_to_inline [("class", AttrVal.lst ["highlight-red2"])]
      = [("class", AttrVal.lst ["highlight-red2"])] ∧
    getClasses (convert_color_classes_to_inline [("class", AttrVal.lst ["highlight-red2"])])
      = ["highlight-red2"] := by
  exact ⟨⟨by decide, by decide⟩, by decide, by decide, by decide⟩

/-- Claim C4, amended: for every element, the class tokens matched by the
pattern (prefix `highlight` or `block-color`, a separator, then a key of
lowercase letters or underscores, digits excluded) are exactly the tokens
removed from the class list; the style of every element after the resolver
is the encounter-order fold of its class snapshot, in which a non-matching
token changes nothing, a matching token whose key ends in `_background`
changes nothing, a matching token with an unrecognized key changes nothing,
and a matching token whose key is in the color table merges one
`color:<value>` declaration; the class attribute itself is removed when no
token survives. -/
theorem claim_C4_color_class_resolver :
    (∀ a : Attrs, keysNodup a →
      getClasses (convert_color_classes_to_inline a)
        = (getClasses a).filter (fun c => (colorClassKey c).isNone)) ∧
    (∀ a : Attrs, styleStr (convert_color_classes_to_inline a)
        = styleStr (ccStyleFold (getClasses a) a)) ∧
    (∀ (a : Attrs) (rest : List String) (cls : String), colorClassKey cls = none →
      ccStyleFold (cls :: rest) a = ccStyleFold rest a) ∧
    (∀ (a : Attrs) (rest : List String) (cls key : String),
      colorClassKey cls = some key → strEndsWith key "_background" = true →
      ccStyleFold (cls :: rest) a = ccStyleFold rest a) ∧
    (∀ (a : Attrs) (rest : List String) (cls key : String),
      colorClassKey cls = some key → strEndsWith key "_background" = false →
      cssGet CSS_COLOR_MAP key = none →
      ccStyleFold (cls :: rest) a = ccStyleFold rest a) ∧
    (∀ (a : Attrs) (rest : List String) (cls key col : String),
      colorClassKey cls = some key → strEndsWith key "_background" = false →
      cssGet CSS_COLOR_MAP key = some col →
      ccStyleFold (cls :: rest) a
        = ccStyleFold rest (merge_style a ("color:" ++ col))) ∧
    (∀ a : Attrs, keysNodup a → getClasses a ≠ [] →
      (getClasses a).filter (fun c => (colorClassKey c).isNone) = [] →
      getAttr (convert_color_classes_to_inline a) "class" = none) := by
  refine ⟨conv_color_classes, conv_color_classes_style, ?_, ?_, ?_, ?_, ?_⟩
  · intro a rest cls h
    simp [ccStyleFold, h]
  · intro a rest cls key hk hb
    simp only [ccStyleFold, hk]
    rw [if_neg (by simp [hb])]
  · intro a rest cls key hk hb hc
    simp only [ccStyleFold, hk]
    rw [if_pos (by simp [hb]), hc]
  · intro a rest cls key col hk hb hc
    simp only [ccStyleFold, hk]
    rw [if_pos (by simp [hb]), hc]
  · intro a h hne hfilter
    rw [conv_color_classes_shape a hne]
    have hfst := ccLoop_fst (getClasses a) (getClasses a) a
    rw [ccErase_self, hfilter] at hfst
    rw [if_neg (fun hn => hn hfst)]
    exact getAttr_popAttr_self _ _ (ccLoop_snd_nodup _ _ _ h)

/-- Witness for claim C4: concrete elements exercising the removal branch,
the multi-token encounter-order merge, the non-matching token, the
background key, the unmatched key, the color-merging key, and the removal
of the emptied class attribute. -/
theorem claim_C4_witness :
    getClasses (convert_color_classes_to_inline
        [("class", AttrVal.lst ["highlight-red", "keep"]),
         ("style", AttrVal.str "font-weight:bold")])
      = ["keep"] ∧
    styleStr (convert_color_classes_to_inline
        [("class", AttrVal.lst ["highlight-red", "block-color-blue"])])
      = "color:red;color:blue" ∧
    ccStyleFold ["nomatch"] [("style", AttrVal.str "x:y")]
      = ccStyleFold [] [("style", AttrVal.str "x:y")] ∧
    ccStyleFold ["highlight-blue_background"] [] = ccStyleFold [] [] ∧
    ccStyleFold ["block-color-unknownkey"] [] = ccStyleFold [] [] ∧
    ccStyleFold ["highlight-red"] []
      = ccStyleFold [] (merge_style [] ("color:" ++ "red")) ∧
    getAttr (convert_color_classes_to_inline
        [("class", AttrVal.lst ["highlight-blue_background"])]) "class" = none := by
  refine ⟨?_, ?_, ?_, ?_, ?_, ?_, ?_⟩
  · exact (claim_C4_color_class_resolver.1 _ (by decide)).trans (by decide)
  · exact (claim_C4_color_class_resolver.2.1 _).trans (by decide)
  · exact claim_C4_color_class_resolver.2.2.1 _ [] "nomatch" (by decide)
  · exact claim_C4_color_class_resolver.2.2.2.1 _ [] "highlight-blue_background"
      "blue_background" (by decide) (by decide)
  · exact claim_C4_color_class_resolver.2.2.2.2.1 _ [] "block-color-unknownkey"
      "unknownkey" (by decide) (by decide) (by decide)
  · exact claim_C4_color_class_resolver.2.2.2.2.2.1 _ [] "highlight-red" "red" "red"
      (by decide) (by decide) (by decide)
  · exact claim_C4_color_class_resolver.2.2.2.2.2.2 _ (by decide) (by decide) (by decide)

/-- Claim C5: the color-class resolver is idempotent on elements whose
attribute dictionary has distinct keys (every real element): the first
application leaves no recognized token, so a second application changes
neither the class attribute nor the style attribute. -/
theorem claim_C5_resolver_idempotent (a : Attrs) (h : keysNodup a) :
    convert_color_classes_to_inline (convert_color_classes_to_inline a)
      = convert_color_classes_to_inline a := by
  by_cases h0 : getClasses a = []
  · rw [conv_color_classes_of_no_classes a h0, conv_color_classes_of_no_classes a h0]
  · have hfst := ccLoop_fst (getClasses a) (getClasses a) a
    rw [ccErase_self] at hfst
    by_cases h1 : (ccLoop (getClasses a) (getClasses a, a)).1 = []
    · rw [conv_color_classes_shape a h0, if_neg (fun hn => hn h1)]
      apply conv_color_classes_of_no_classes
      exact getClasses_of_getAttr_none _
        (getAttr_popAttr_self _ _ (ccLoop_snd_nodup _ _ _ h))
    · rw [conv_color_classes_shape a h0, if_pos h1]
      have hcl1 : getClasses (setAttr (ccLoop (getClasses a) (getClasses a, a)).2 "class"
          (.lst (ccLoop (getClasses a) (getClasses a, a)).1))
          = (ccLoop (getClasses a) (getClasses a, a)).1 := getClasses_setAttr_class _ _
      have hnm : ∀ c ∈ (ccLoop (getClasses a) (getClasses a, a)).1,
          colorClassKey c = none := by
        intro c hc
        rw [hfst] at hc
        have hmem := List.of_mem_filter hc
        simpa [Option.isNone_iff_eq_none] using hmem
      have h0x : ¬ getClasses (setAttr (ccLoop (getClasses a) (getClasses a, a)).2 "class"
          (.lst (ccLoop (getClasses a) (getClasses a, a)).1)) = [] := by
        rw [hcl1]; exact h1
      rw [conv_color_classes_shape _ h0x, hcl1,
        ccLoop_nomatch _ _ _ hnm, if_pos h1]
      exact setAttr_of_getAttr_eq _ _ _ (getAttr_setAttr_self _ _ _)

/-- Witness for claim C5: a concrete element carrying one recognized and
one unrecognized class token. -/
theorem claim_C5_witness :
    keysNodup [("class", AttrVal.lst ["highlight-red", "keep"])] ∧
    convert_color_classes_to_inline (convert_color_classes_to_inline
        [("class", AttrVal.lst ["highlight-red", "keep"])])
      = convert_color_classes_to_inline [("class", AttrVal.lst ["highlight-red", "keep"])] :=
  ⟨by decide, claim_C5_resolver_idempotent _ (by decide)⟩

/-- Counterexample to claim C6 as stated: merging the same fragment twice
duplicates it instead of leaving the style unchanged, so the style merger
is not idempotent. -/
theorem claim_C6_counterexample :
    merge_style (merge_style [] "color:red") "color:red" ≠ merge_style [] "color:red" ∧
    styleStr (merge_style (merge_style [] "color:red") "color:red") = "color:red;color:red" := by
  exact ⟨by decide, by decide⟩

/-- Claim C6, amended: the style merger is not idempotent.  Whenever the
style produced by the first application trims and semicolon-strips to a
nonempty string, the second application of the same fragment appends the
fragment again after a semicolon. -/
theorem claim_C6_merge_style_duplicates (a : Attrs) (rules : String)
    (h : rstripSemi (pyStrip (styleStr (merge_style a rules))) ≠ "") :
    styleStr (merge_style (merge_style a rules) rules)
      = rstripSemi (pyStrip (styleStr (merge_style a rules))) ++ ";" ++ rules := by
  rw [styleStr_merge_style]
  unfold mergeStyleVal
  rw [if_pos h]

/-- Witness for claim C6: the duplication at the concrete element and
fragment of the counterexample. -/
theorem claim_C6_witness :
    rstripSemi (pyStrip (styleStr (merge_style [] "color:red"))) ≠ "" ∧
    styleStr (merge_style (merge_style [] "color:red") "color:red")
      = rstripSemi (pyStrip (styleStr (merge_style [] "color:red"))) ++ ";" ++ "color:red" :=
  ⟨by decide, claim_C6_merge_style_duplicates [] "color:red" (by decide)⟩

/-! ## Claims C3, C9, C10 -/

/-- Counterexample to claim C3 as stated.  A cell whose only styling is a
background-color declaration sanitizes to markup in which the element still
carries a style attribute with empty value, not to markup without a style
attribute. -/
theorem claim_C3_counterexample :
    (sanitize_inline_html (Node.elem "td" []
        (nodes [Node.elem "span" [("style", AttrVal.str "background-color:yellow")]
          (nodes [Node.text "A"])])) false).1
      = "<span style=\"\">A</span>" ∧
    containsSub ((sanitize_inline_html (Node.elem "td" []
        (nodes [Node.elem "span" [("style", AttrVal.str "background-color:yellow")]
          (nodes [Node.text "A"])])) false).1) "style=\"\"" = true := by
  exact ⟨by decide, by decide⟩

/-- Claim C3, amended: background stripping rewrites a present style
attribute to the kept declarations, and when every declaration is blank or
a background-color declaration the style attribute is kept with the empty
string as its value (serialized as an empty style attribute) rather than
dropped. -/
theorem claim_C3_empty_style_kept :
    (∀ (a : Attrs) (s : String), getAttr a "style" = some (AttrVal.str s) →
      getAttr (bgStripAttrs a) "style" = some (AttrVal.str (stripBgStyle s))) ∧
    (∀ (a : Attrs) (s : String), getAttr a "style" = some (AttrVal.str s) →
      (∀ p ∈ splitSemis s,
        pyStrip p = "" ∨ strStartsWith (pyStrip p) "background-color" = true) →
      getAttr (bgStripAttrs a) "style" = some (AttrVal.str "")) := by
  have h1 : ∀ (a : Attrs) (s : String), getAttr a "style" = some (AttrVal.str s) →
      getAttr (bgStripAttrs a) "style" = some (AttrVal.str (stripBgStyle s)) := by
    intro a s hs
    have hstyle : styleStr a = s := by simp [styleStr, hs]
    unfold bgStripAttrs
    rw [hs]
    simp only [Option.isSome_some, if_true]
    rw [getAttr_setAttr_self, hstyle]
  refine ⟨h1, ?_⟩
  intro a s hs hall
  have h2 := h1 a s hs
  have hkept : keptStyleDecls s = [] := by
    unfold keptStyleDecls
    rw [List.filter_eq_nil_iff]
    intro p hp
    obtain ⟨hmem, hcond⟩ := List.mem_filter.mp hp
    rcases hall p hmem with hblank | hbg
    · simp [hblank]
    · simp [hbg] at hcond
  have hempty : stripBgStyle s = "" := by
    unfold stripBgStyle
    rw [hkept]
    rfl
  rw [hempty] at h2
  exact h2

/-- Witness for claim C3: a style made of one background declaration and a
style mixing a kept color with a dropped background declaration. -/
theorem claim_C3_witness :
    getAttr (bgStripAttrs [("style", AttrVal.str "background-color:yellow")]) "style"
      = some (AttrVal.str "") ∧
    getAttr (bgStripAttrs [("style", AttrVal.str "color:blue;background-color:red")]) "style"
      = some (AttrVal.str "color:blue") := by
  constructor
  · exact claim_C3_empty_style_kept.2 _ "background-color:yellow" (by decide) (by decide)
  · exact (claim_C3_empty_style_kept.1 _ "color:blue;background-color:red"
      (by decide)).trans (by decide)

/-- Counterexample to claim C9 as stated.  A link element carrying an href
attribute whose value is the empty string is left with no attributes at
all (Python truthiness drops it), not reduced to an element with only that
href. -/
theorem claim_C9_counterexample :
    getAttr [("href", AttrVal.str ""), ("style", AttrVal.str "color:red")] "href"
      = some (AttrVal.str "") ∧
    anchorAttrs [("href", AttrVal.str ""), ("style", AttrVal.str "color:red")] = [] ∧
    (sanitize_inline_html (Node.elem "td" []
        (nodes [Node.elem "a" [("href", AttrVal.str ""), ("style", AttrVal.str "color:red")]
          (nodes [Node.text "x"])])) false).1 = "<a>x</a>" := by
  exact ⟨by decide, by decide, by decide⟩

/-- Claim C9, amended: anchor pruning reduces a link element to exactly one
href attribute copied unchanged whenever the element has a truthy
(non-empty) href value; a link with no href attribute, or with an empty
href value, is left with no attributes; every other attribute is
discarded in all cases. -/
theorem claim_C9_anchor_href :
    (∀ (a : Attrs) (v : AttrVal), getAttr a "href" = some v → v.truthy = true →
      anchorAttrs a = [("href", v)]) ∧
    (∀ a : Attrs, getAttr a "href" = none → anchorAttrs a = []) ∧
    (∀ (a : Attrs) (v : AttrVal), getAttr a "href" = some v → v.truthy = false →
      anchorAttrs a = []) := by
  refine ⟨?_, ?_, ?_⟩
  · intro a v hv ht
    unfold anchorAttrs
    rw [hv]
    simp [ht]
  · intro a hv
    unfold anchorAttrs
    rw [hv]
  · intro a v hv ht
    unfold anchorAttrs
    rw [hv]
    simp [ht]

/-- Witness for claim C9: a link with a background-color declaration keeps
only its href; links without href lose all attributes; the full rich pass
on such a link cell produces the pruned markup. -/
theorem claim_C9_witness :
    anchorAttrs [("href", AttrVal.str "http://e.x"),
        ("style", AttrVal.str "background-color:red"), ("rel", AttrVal.str "noopener")]
      = [("href", AttrVal.str "http://e.x")] ∧
    anchorAttrs [("style", AttrVal.str "color:red")] = [] ∧
    (sanitize_inline_html (Node.elem "td" []
        (nodes [Node.elem "a" [("href", AttrVal.str "http://e.x"),
          ("style", AttrVal.str "background-color:red"), ("rel", AttrVal.str "noopener")]
          (nodes [Node.text "x"])])) false).1 = "<a href=\"http://e.x\">x</a>" := by
  refine ⟨claim_C9_anchor_href.1 _ _ (by decide) (by decide),
    claim_C9_anchor_href.2.1 _ (by decide), by decide⟩

/-- Claim C10: plain-text sanitization does not mutate the cell subtree (the
returned tree is the input tree, so a later rich-mode pass over it sees
exactly the original markup), and its string result is the collapsed,
trimmed visible text. -/
theorem claim_C10_plain_mode_frame (cell : Node) :
    (sanitize_inline_html cell true).2 = cell ∧
    (sanitize_inline_html cell true).1 = get_text cell " " ∧
    sanitize_inline_html ((sanitize_inline_html cell true).2) false
      = sanitize_inline_html cell false :=
  ⟨rfl, rfl, rfl⟩

/-! ## Claim C7: helper lemmas about the tag normalizer -/

theorem mem_of_mem_dropWhile {α : Type} (p : α → Bool) :
    ∀ (l : List α) (a : α), a ∈ l.dropWhile p → a ∈ l := by
  intro l
  induction l with
  | nil => intro a ha; simp [List.dropWhile] at ha
  | cons x xs ih =>
    intro a ha
    by_cases hp : p x
    · rw [List.dropWhile_cons_of_pos hp] at ha
      exact List.mem_cons_of_mem _ (ih a ha)
    · rw [List.dropWhile_cons_of_neg (by simpa using hp)] at ha
      exact ha

theorem length_dropWhile_le {α : Type} (p : α → Bool) :
    ∀ l : List α, (l.dropWhile p).length ≤ l.length := by
  intro l
  induction l with
  | nil => simp [List.dropWhile]
  | cons x xs ih =>
    by_cases hp : p x
    · rw [List.dropWhile_cons_of_pos hp]
      exact le_trans ih (by simp)
    · rw [List.dropWhile_cons_of_neg (by simpa using hp)]

theorem splitRunsByF_chars (p : Char → Bool) :
    ∀ (fuel : Nat) (l : List Char), l.length < fuel →
      ∀ piece ∈ splitRunsByF p fuel l, ∀ c ∈ piece, p c = false := by
  intro fuel
  induction fuel with
  | zero =>
    intro l hl
    exact absurd hl (by omega)
  | succ fuel ih =>
    intro l hl piece hpiece c hc
    simp only [splitRunsByF] at hpiece
    rcases hdrop : l.dropWhile (fun c => ¬ p c) with _ | ⟨d, rest⟩
    · rw [hdrop] at hpiece
      simp only [List.mem_singleton] at hpiece
      subst hpiece
      have := List.mem_takeWhile_imp hc
      simpa using this
    · rw [hdrop] at hpiece
      simp only [List.mem_cons] at hpiece
      rcases hpiece with hpiece | hpiece
      · subst hpiece
        have := List.mem_takeWhile_imp hc
        simpa using this
      · have hlen : (rest.dropWhile p).length < fuel := by
          have h1 : (rest.dropWhile p).length ≤ rest.length :=
            length_dropWhile_le p rest
          have h2 : rest.length + 1 ≤ l.length := by
            have h3 := length_dropWhile_le (fun c => ¬ p c) l
            rw [hdrop] at h3
            simpa using h3
          omega
        exact ih _ hlen piece hpiece c hc

theorem reSplitDelims_chars (raw : String) :
    ∀ piece ∈ reSplitDelims raw, ∀ c ∈ piece.data, isTagDelim c = false := by
  intro piece hpiece c hc
  unfold reSplitDelims splitRunsBy at hpiece
  obtain ⟨l, hl, heq⟩ := List.mem_map.mp hpiece
  subst heq
  exact splitRunsByF_chars isTagDelim _ _ (by omega) l hl c hc

theorem mem_pyStripL (l : List Char) (c : Char) (h : c ∈ pyStripL l) : c ∈ l := by
  unfold pyStripL at h
  rw [List.mem_reverse] at h
  have h2 := mem_of_mem_dropWhile pyIsSpace _ _ h
  rw [List.mem_reverse] at h2
  exact mem_of_mem_dropWhile pyIsSpace _ _ h2

theorem mem_stripCommaSemi (s : String) (c : Char) (h : c ∈ (stripCommaSemi s).data) :
    c ∈ s.data := by
  unfold stripCommaSemi at h
  simp only at h
  rw [List.mem_reverse] at h
  have h2 := mem_of_mem_dropWhile (fun c => c = ',' || c = ';') _ _ h
  rw [List.mem_reverse] at h2
  exact mem_of_mem_dropWhile (fun c => c = ',' || c = ';') _ _ h2

theorem collapseWsDash_chars :
    ∀ (l : List Char) (c : Char), c ∈ collapseWsDash l →
      pyIsSpace c = false ∧ (c ∈ l ∨ c = '-') := by
  intro l
  induction l with
  | nil => intro c hc; simp [collapseWsDash] at hc
  | cons c0 rest ih =>
    intro c hc
    cases rest with
    | nil =>
      by_cases hw : pyIsSpace c0
      · simp only [collapseWsDash, hw, if_true, List.mem_singleton] at hc
        subst hc
        exact ⟨by decide, Or.inr rfl⟩
      · simp only [collapseWsDash, hw, Bool.false_eq_true, if_false,
          List.mem_singleton] at hc
        subst hc
        exact ⟨by simpa using hw, Or.inl (by simp)⟩
    | cons d rest2 =>
      by_cases hw : pyIsSpace c0
      · by_cases hw2 : pyIsSpace d
        · simp only [collapseWsDash, hw, hw2, if_true] at hc
          obtain ⟨h1, h2⟩ := ih c hc
          exact ⟨h1, by rcases h2 with h2 | h2; exact Or.inl (by simp [h2]); exact Or.inr h2⟩
        · simp only [collapseWsDash, hw, hw2, Bool.false_eq_true, if_true, if_false,
            List.mem_cons] at hc
          rcases hc with hc | hc
          · subst hc
            exact ⟨by decide, Or.inr rfl⟩
          · obtain ⟨h1, h2⟩ := ih c hc
            exact ⟨h1, by rcases h2 with h2 | h2; exact Or.inl (by simp [h2]); exact Or.inr h2⟩
      · simp only [collapseWsDash, hw, Bool.false_eq_true, if_false, List.mem_cons] at hc
        rcases hc with hc | hc
        · subst hc
          exact ⟨by simpa using hw, Or.inl (by simp)⟩
        · obtain ⟨h1, h2⟩ := ih c hc
          exact ⟨h1, by rcases h2 with h2 | h2; exact Or.inl (by simp [h2]); exact Or.inr h2⟩

theorem tagTransform_chars (tok : String) (c : Char)
    (h : c ∈ (tagTransform tok).data) :
    pyIsSpace c = false ∧ (c ∈ tok.data ∨ c = '-') := by
  unfold tagTransform at h
  have h1 := mem_stripCommaSemi _ _ h
  simp only at h1
  obtain ⟨hws, hmem⟩ := collapseWsDash_chars _ _ h1
  refine ⟨hws, ?_⟩
  rcases hmem with hmem | hmem
  · exact Or.inl (mem_pyStripL _ _ hmem)
  · exact Or.inr hmem

theorem tagDedupLoop_sound :
    ∀ (ts seen : List String),
      (∀ x ∈ tagDedupLoop ts seen,
        x ∉ seen ∧ x ≠ "" ∧ ∃ t ∈ ts, x = tagTransform t) ∧
      (tagDedupLoop ts seen).Nodup := by
  intro ts
  induction ts with
  | nil => intro seen; simp [tagDedupLoop]
  | cons t ts ih =>
    intro seen
    by_cases hg : tagTransform t ≠ "" ∧ tagTransform t ∉ seen
    · have hL : tagDedupLoop (t :: ts) seen
          = tagTransform t :: tagDedupLoop ts (tagTransform t :: seen) := by
        simp only [tagDedupLoop]
        rw [if_pos hg]
      rw [hL]
      constructor
      · intro x hx
        rcases List.mem_cons.mp hx with hx | hx
        · subst hx
          exact ⟨hg.2, hg.1, t, by simp⟩
        · obtain ⟨hns, hne, tt, htt, hxe⟩ := (ih (tagTransform t :: seen)).1 x hx
          refine ⟨fun hmem => hns (by simp [hmem]), hne, tt, by simp [htt], hxe⟩
      · rw [List.nodup_cons]
        refine ⟨?_, (ih (tagTransform t :: seen)).2⟩
        intro hmem
        obtain ⟨hns, _, _⟩ := (ih (tagTransform t :: seen)).1 _ hmem
        exact hns (by simp)
    · have hL : tagDedupLoop (t :: ts) seen = tagDedupLoop ts seen := by
        simp only [tagDedupLoop]
        rw [if_neg hg]
      rw [hL]
      constructor
      · intro x hx
        obtain ⟨hns, hne, tt, htt, hxe⟩ := (ih seen).1 x hx
        exact ⟨hns, hne, tt, by simp [htt], hxe⟩
      · exact (ih seen).2

theorem tagDedupLoop_eq_firstSeenDedup :
    ∀ (ts seen : List String),
      tagDedupLoop ts seen
        = firstSeenDedup (((ts.map tagTransform).filter (· ≠ "")).filter
            (fun x => x ∉ seen)) := by
  intro ts
  induction ts with
  | nil => intro seen; simp [tagDedupLoop, firstSeenDedup]
  | cons t ts ih =>
    intro seen
    by_cases he : tagTransform t = ""
    · have hL : tagDedupLoop (t :: ts) seen = tagDedupLoop ts seen := by
        simp only [tagDedupLoop]
        rw [if_neg (by simp [he])]
      rw [hL, ih seen]
      congr 1
      simp [List.filter_cons, he]
    · by_cases hs : tagTransform t ∈ seen
      · have hL : tagDedupLoop (t :: ts) seen = tagDedupLoop ts seen := by
          simp only [tagDedupLoop]
          rw [if_neg (by simp [hs])]
        rw [hL, ih seen]
        congr 1
        simp [List.filter_cons, he, hs]
      · have hL : tagDedupLoop (t :: ts) seen
            = tagTransform t :: tagDedupLoop ts (tagTransform t :: seen) := by
          simp only [tagDedupLoop]
          rw [if_pos ⟨he, hs⟩]
        rw [hL, ih (tagTransform t :: seen)]
        have hR : ((List.map tagTransform (t :: ts)).filter (· ≠ "")).filter
            (fun x => x ∉ seen)
            = tagTransform t :: (((List.map tagTransform ts).filter (· ≠ "")).filter
                (fun x => x ∉ seen)) := by
          simp [List.filter_cons, he, hs]
        rw [hR]
        have hfsd : firstSeenDedup (tagTransform t
              :: ((List.map tagTransform ts).filter (· ≠ "")).filter (fun x => x ∉ seen))
            = tagTransform t :: firstSeenDedup (((((List.map tagTransform ts).filter
                (· ≠ "")).filter (fun x => x ∉ seen))).filter (· ≠ tagTransform t)) := by
          simp [firstSeenDedup]
        rw [hfsd]
        congr 1
        congr 1
        simp only [List.filter_filter]
        apply List.filter_congr
        intro x hx
        by_cases h1 : x = tagTransform t <;> by_cases h2 : x ∈ seen <;> simp [h1, h2]

/-- Claim C7: the tag normalizer output is the clean token list joined by
single spaces, where the clean tokens are pairwise distinct, nonempty,
contain no comma, semicolon or whitespace characters, and are exactly the
first-seen-order deduplication (by exact string equality) of the
transformed nonempty tokens. -/
theorem claim_C7_tag_normalizer (cell : Node) :
    tags_from_cell cell = joinSep " " (cleanTags (get_text cell " ")) ∧
    (cleanTags (get_text cell " ")).Nodup ∧
    (∀ t ∈ cleanTags (get_text cell " "), t ≠ "" ∧
      ∀ c ∈ t.data, c ≠ ',' ∧ c ≠ ';' ∧ pyIsSpace c = false) ∧
    cleanTags (get_text cell " ")
      = firstSeenDedup (((tagTokens (get_text cell " ")).map tagTransform).filter
          (· ≠ "")) := by
  refine ⟨rfl, ?_, ?_, ?_⟩
  · exact (tagDedupLoop_sound _ _).2
  · intro t ht
    obtain ⟨-, hne, tt, htt, hte⟩ := (tagDedupLoop_sound _ _).1 t ht
    subst hte
    refine ⟨hne, ?_⟩
    intro c hc
    obtain ⟨hws, hmem⟩ := tagTransform_chars tt c hc
    rcases hmem with hmem | hmem
    · obtain ⟨hmem2, -⟩ := List.mem_filter.mp htt
      obtain ⟨piece, hpiece, hpe⟩ := List.mem_map.mp hmem2
      subst hpe
      have hmem3 : c ∈ pyStripL piece.data := hmem
      have hd := reSplitDelims_chars _ piece hpiece c (mem_pyStripL _ _ hmem3)
      refine ⟨fun heq => ?_, fun heq => ?_, hws⟩ <;>
        · rw [heq] at hd
          simp [isTagDelim] at hd
    · subst hmem
      exact ⟨by decide, by decide, by decide⟩
  · unfold cleanTags
    rw [tagDedupLoop_eq_firstSeenDedup]
    congr 1
    apply List.filter_eq_self.mpr
    intro x hx
    simp

/-- Witness for claim C7: a concrete tag cell with repeated delimiters,
internal whitespace and a duplicate token. -/
theorem claim_C7_witness :
    tags_from_cell (Node.elem "td" [] (nodes [Node.text " a b ;; a-b,  x , x ,"]))
      = "a-b x" ∧
    (cleanTags (get_text (Node.elem "td" []
      (nodes [Node.text " a b ;; a-b,  x , x ,"])) " ")).Nodup := by
  have h := claim_C7_tag_normalizer (Node.elem "td" []
    (nodes [Node.text " a b ;; a-b,  x , x ,"]))
  exact ⟨h.1.trans (by decide), h.2.1⟩

/-! ## Claims C1 and C2 -/

/-- Claim C1: a document with no table, no header section, a header that
maps no column to a required role (reported in the order id, front, back,
naming the missing column), or no body section makes the conversion return
the corresponding structure error, and hence no records at all. -/
theorem claim_C1_structure_errors :
    (∀ doc : Node, findFirstTag "table" doc = none →
      convert_file doc = .error .missingTable) ∧
    (∀ doc table : Node, findFirstTag "table" doc = some table →
      findFirstTag "thead" table = none →
      convert_file doc = .error .missingThead) ∧
    (∀ doc table thead : Node, findFirstTag "table" doc = some table →
      findFirstTag "thead" table = some thead →
      ((buildColMap (headersOf thead)).idIdx = none →
        convert_file doc = .error (.missingColumn "id")) ∧
      (∀ i, (buildColMap (headersOf thead)).idIdx = some i →
        (buildColMap (headersOf thead)).frontIdx = none →
        convert_file doc = .error (.missingColumn "front")) ∧
      (∀ i f, (buildColMap (headersOf thead)).idIdx = some i →
        (buildColMap (headersOf thead)).frontIdx = some f →
        (buildColMap (headersOf thead)).backIdx = none →
        convert_file doc = .error (.missingColumn "back"))) ∧
    (∀ (doc table thead : Node) (cm : ColMapOk),
      findFirstTag "table" doc = some table →
      findFirstTag "thead" table = some thead →
      checkRequired (buildColMap (headersOf thead)) = .ok cm →
      findFirstTag "tbody" table = none →
      convert_file doc = .error .missingTbody) := by
  refine ⟨?_, ?_, ?_, ?_⟩
  · intro doc h
    unfold convert_file parse_table
    rw [h]
  · intro doc table h1 h2
    simp [convert_file, parse_table, h1, h2]
  · intro doc table thead h1 h2
    refine ⟨?_, ?_, ?_⟩
    · intro hid
      simp [convert_file, parse_table, checkRequired, h1, h2, hid]
    · intro i hid hfr
      simp [convert_file, parse_table, checkRequired, h1, h2, hid, hfr]
    · intro i f hid hfr hba
      simp [convert_file, parse_table, checkRequired, h1, h2, hid, hfr, hba]
  · intro doc table thead cm h1 h2 h3 h4
    simp [convert_file, parse_table, h1, h2, h3, h4]

/-- Witness for claim C1: concrete documents missing the table, the header,
the id column, and the body. -/
theorem claim_C1_witness :
    convert_file docMissingTable = .error .missingTable ∧
    convert_file docMissingThead = .error .missingThead ∧
    convert_file docMissingId = .error (.missingColumn "id") ∧
    convert_file docMissingTbody = .error .missingTbody := by
  refine ⟨claim_C1_structure_errors.1 docMissingTable rfl,
    claim_C1_structure_errors.2.1 docMissingThead _ rfl rfl,
    (claim_C1_structure_errors.2.2.1 docMissingId _ _ rfl rfl).1 rfl,
    claim_C1_structure_errors.2.2.2 docMissingTbody _ _ ⟨0, 1, 2, none⟩ rfl rfl rfl rfl⟩

theorem getCell_ok (tds : List Node) (i : Nat) (h : i < tds.length) :
    getCell tds i = .ok (tds.getD i (Node.text "")) := by
  unfold getCell
  cases h2 : tds.get? i with
  | none =>
    rw [List.get?_eq_none] at h2
    omega
  | some x =>
    rw [List.getD_eq_getElem?_getD, ← List.get?_eq_getElem?, h2]
    rfl

theorem makeRecord_ok (cm : ColMapOk) (tds : List Node)
    (hi : cm.idIdx < tds.length) (hf : cm.frontIdx < tds.length)
    (hb : cm.backIdx < tds.length)
    (ht : ∀ ti, cm.tagsIdx = some ti → ti < tds.length) :
    makeRecord cm tds = .ok
      { notionId := get_text (tds.getD cm.idIdx (Node.text "")) ""
        front := (sanitize_inline_html (tds.getD cm.frontIdx (Node.text "")) true).1
        back := (sanitize_inline_html (tds.getD cm.backIdx (Node.text "")) false).1
        tags :=
          match cm.tagsIdx with
          | some ti => tags_from_cell (tds.getD ti (Node.text ""))
          | none => "" } := by
  cases htag : cm.tagsIdx with
  | none =>
    unfold makeRecord
    rw [getCell_ok _ _ hi, getCell_ok _ _ hf, getCell_ok _ _ hb, htag]
    rfl
  | some ti =>
    unfold makeRecord
    rw [getCell_ok _ _ hi, getCell_ok _ _ hf, getCell_ok _ _ hb, htag]
    simp only [getCell_ok _ _ (ht ti htag)]
    rfl

/-- Counterexample to claim C2 as stated.  A data row with one cell, in a
table whose front column maps to index 1, makes the conversion fail with
an index error and produce no record for the row. -/
theorem claim_C2_counterexample :
    convert_file docShortRow = .error .indexError ∧
    findAllN "td" (simpleRow ["only"]) ≠ [] ∧
    (findAllN "td" (simpleRow ["only"])).length = 1 := by
  refine ⟨rfl, ?_, rfl⟩
  intro h
  exact absurd (congrArg List.length h) (by decide)

/-- Claim C2, amended: for every data row whose cell list covers all mapped
column indices (in particular, rows with at least as many cells as every
mapped index), the row loop reads the id cell as plain text, the front
cell in plain mode, the back cell in rich mode, and the tags cell when
mapped, and emits exactly one record per such row, in source row order;
rows with zero cells are skipped without error.  A row with at least one
cell but fewer cells than a mapped index instead raises an uncaught index
error (see the counterexample). -/
theorem claim_C2_row_processing (cm : ColMapOk) (rows : List Node)
    (h : ∀ tr ∈ rows, (findAllN "td" tr).isEmpty = false →
      cm.idIdx < (findAllN "td" tr).length ∧
      cm.frontIdx < (findAllN "td" tr).length ∧
      cm.backIdx < (findAllN "td" tr).length ∧
      cm.tagsIdx.all (fun ti => ti < (findAllN "td" tr).length) = true) :
    processRows cm rows = .ok (rows.filterMap (rowRecord cm)) := by
  induction rows with
  | nil => rfl
  | cons tr rest ih =>
    have hrest : processRows cm rest = .ok (rest.filterMap (rowRecord cm)) :=
      ih fun tr2 h2 => h tr2 (by simp [h2])
    by_cases hemp : (findAllN "td" tr).isEmpty
    · have hnone : rowRecord cm tr = none := by
        simp [rowRecord, hemp]
      rw [List.filterMap_cons, hnone, processRows, if_pos hemp, hrest]
    · obtain ⟨hi, hf, hb, ht⟩ := h tr (by simp) (by simpa using hemp)
      have ht2 : ∀ ti, cm.tagsIdx = some ti → ti < (findAllN "td" tr).length := by
        intro ti hti
        rw [hti] at ht
        simpa using ht
      have hsome : rowRecord cm tr = some
          { notionId := get_text ((findAllN "td" tr).getD cm.idIdx (Node.text "")) ""
            front := (sanitize_inline_html ((findAllN "td" tr).getD cm.frontIdx
              (Node.text "")) true).1
            back := (sanitize_inline_html ((findAllN "td" tr).getD cm.backIdx
              (Node.text "")) false).1
            tags :=
              match cm.tagsIdx with
              | some ti => tags_from_cell ((findAllN "td" tr).getD ti (Node.text ""))
              | none => "" } := by
        simp [rowRecord, hemp]
      rw [List.filterMap_cons, hsome, processRows, if_neg hemp,
        makeRecord_ok cm _ hi hf hb ht2, hrest]
      rfl

/-- Witness for claim C2: three rows (a full row, a row with no cells, and
another full row) produce exactly two records in source order, and the
complete conversion of a well-formed document produces its record. -/
theorem claim_C2_witness :
    processRows ⟨0, 1, 2, none⟩
        [simpleRow ["1", "f1", "b1"], Node.elem "tr" [] .nil, simpleRow ["2", "f2", "b2"]]
      = .ok [⟨"1", "f1", "b1", ""⟩, ⟨"2", "f2", "b2", ""⟩] := by
  exact (claim_C2_row_processing ⟨0, 1, 2, none⟩ _ (by decide)).trans
    (congrArg Except.ok (by decide))

/-! ## Claim C8: helper lemmas about fence matching -/

theorem prefix_marker_shape (l : List Char)
    (h : fenceMarker.isPrefixOf l = true) :
    ∃ t, l = btick :: btick :: btick :: t := by
  match l with
  | [] => simp [fenceMarker, List.isPrefixOf] at h
  | [a] => simp [fenceMarker, List.isPrefixOf] at h
  | [a, b] => simp [fenceMarker, List.isPrefixOf] at h
  | a :: b :: c :: t =>
    simp only [fenceMarker, List.isPrefixOf, Bool.and_eq_true, beq_iff_eq,
      Bool.and_true] at h
    obtain ⟨h1, h2, h3⟩ := h
    exact ⟨t, by rw [← h1, ← h2, ← h3]⟩

theorem marker_isPrefixOf_cons (t : List Char) :
    fenceMarker.isPrefixOf (btick :: btick :: btick :: t) = true := by
  simp [fenceMarker, List.isPrefixOf]

theorem prefix3_eq (c y z : Char) (r1 r2 : List Char) :
    fenceMarker.isPrefixOf (c :: y :: z :: r1)
      = fenceMarker.isPrefixOf (c :: y :: z :: r2) := by
  simp [fenceMarker, List.isPrefixOf]

theorem splitAtMarker_none_cons (c : Char) (l : List Char)
    (h : splitAtMarker (c :: l) = none) :
    splitAtMarker l = none ∧ fenceMarker.isPrefixOf (c :: l) = false := by
  rw [splitAtMarker] at h
  by_cases hp : fenceMarker.isPrefixOf (c :: l) = true
  · rw [if_pos hp] at h
    exact absurd h (by simp)
  · rw [if_neg hp] at h
    refine ⟨?_, Bool.eq_false_iff.mpr hp⟩
    cases hs : splitAtMarker l with
    | none => rfl
    | some p =>
      rw [hs] at h
      simp at h

theorem splitAtMarker_append_marker (a t : List Char) (ha : cleanBefore a) :
    splitAtMarker (a ++ fenceMarker ++ t) = some (a, t) := by
  induction a with
  | nil =>
    have hshape : ([] : List Char) ++ fenceMarker ++ t
        = btick :: btick :: btick :: t := rfl
    rw [hshape, splitAtMarker, if_pos (marker_isPrefixOf_cons t)]
    rfl
  | cons c a ih =>
    obtain ⟨ha', hp⟩ := splitAtMarker_none_cons c (a ++ [btick, btick]) ha
    have hp2 : fenceMarker.isPrefixOf (c :: (a ++ fenceMarker ++ t)) = false := by
      cases a with
      | nil =>
        rw [show ([] : List Char) ++ fenceMarker ++ t
            = btick :: btick :: (btick :: t) from rfl]
        rw [show (([] : List Char) ++ [btick, btick]) = btick :: btick :: ([] : List Char)
            from rfl] at hp
        rw [prefix3_eq c btick btick (btick :: t) []]
        exact hp
      | cons x a2 =>
        cases a2 with
        | nil =>
          rw [show ([x] : List Char) ++ fenceMarker ++ t
              = x :: btick :: (btick :: btick :: t) from rfl]
          rw [show (([x] : List Char) ++ [btick, btick]) = x :: btick :: [btick]
              from rfl] at hp
          rw [prefix3_eq c x btick (btick :: btick :: t) [btick]]
          exact hp
        | cons y a3 =>
          rw [show ((x :: y :: a3 : List Char) ++ fenceMarker ++ t)
              = x :: y :: (a3 ++ fenceMarker ++ t) from by simp]
          rw [show ((x :: y :: a3 : List Char) ++ [btick, btick])
              = x :: y :: (a3 ++ [btick, btick]) from by simp] at hp
          rw [prefix3_eq c x y (a3 ++ fenceMarker ++ t) (a3 ++ [btick, btick])]
          exact hp
    rw [show ((c :: a) ++ fenceMarker ++ t) = c :: (a ++ fenceMarker ++ t) from by simp]
    rw [splitAtMarker, if_neg (by rw [hp2]; exact Bool.false_ne_true), ih ha']
    rfl

theorem splitAtMarker_some_length :
    ∀ (s pre rest : List Char), splitAtMarker s = some (pre, rest) →
      s.length = pre.length + 3 + rest.length := by
  intro s
  induction s with
  | nil => intro pre rest h; simp [splitAtMarker] at h
  | cons c cs ih =>
    intro pre rest h
    rw [splitAtMarker] at h
    by_cases hp : fenceMarker.isPrefixOf (c :: cs) = true
    · rw [if_pos hp] at h
      obtain ⟨t, ht⟩ := prefix_marker_shape _ hp
      have hc : cs = btick :: btick :: t := by
        injection ht with h1 h2
      have hpre : pre = [] ∧ rest = cs.drop 2 := by
        simp only [Option.some_inj, Prod.mk.injEq] at h
        exact ⟨h.1.symm, h.2.symm⟩
      rw [hpre.1, hpre.2, hc]
      simp only [List.length_nil, List.length_cons, List.drop_succ_cons,
        List.drop_zero]
      omega
    · rw [if_neg hp] at h
      cases hs : splitAtMarker cs with
      | none =>
        rw [hs] at h
        exact Option.noConfusion h
      | some p =>
        rw [hs] at h
        have h2 : (c :: p.1, p.2) = (pre, rest) := Option.some.inj h
        have hlen := ih p.1 p.2 (by rw [hs])
        cases h2
        simp only [List.length_cons]
        omega

theorem fenceSubF_congr :
    ∀ (f1 f2 : Nat) (s : List Char), s.length < f1 → s.length < f2 →
      fenceSubF f1 s = fenceSubF f2 s := by
  intro f1
  induction f1 with
  | zero => intro f2 s h1 h2; exact absurd h1 (by omega)
  | succ f1 ih =>
    intro f2 s h1 h2
    cases f2 with
    | zero => exact absurd h2 (by omega)
    | succ f2 =>
      cases hs : splitAtMarker s with
      | none => simp only [fenceSubF, hs]
      | some p =>
        obtain ⟨pre, rest⟩ := p
        cases hr : splitAtMarker rest with
        | none => simp only [fenceSubF, hs, hr]
        | some q =>
          obtain ⟨inner, rest2⟩ := q
          have l1 := splitAtMarker_some_length s pre rest hs
          have l2 := splitAtMarker_some_length rest inner rest2 hr
          simp only [fenceSubF, hs, hr]
          rw [ih f2 rest2 (by omega) (by omega)]

theorem fenceSubF_matched (fuel : Nat) (a b c : List Char)
    (ha : cleanBefore a) (hb : cleanBefore b) :
    fenceSubF (fuel + 1) (a ++ fenceMarker ++ (b ++ fenceMarker ++ c))
      = a ++ fence_replacer b ++ fenceSubF fuel c := by
  have h1 := splitAtMarker_append_marker a (b ++ fenceMarker ++ c) ha
  have h2 := splitAtMarker_append_marker b c hb
  simp only [fenceSubF, h1, h2]

theorem fenceSubF_unmatched (fuel : Nat) (a b : List Char)
    (ha : cleanBefore a) (hb : noMarker b) :
    fenceSubF (fuel + 1) (a ++ fenceMarker ++ b) = a ++ fenceMarker ++ b := by
  have h1 := splitAtMarker_append_marker a b ha
  simp only [fenceSubF, h1, hb]

/-- Claim C8: fence matching over the serialized markup is first-close-wins
and never crosses a fence boundary (the region between the leftmost opening
marker and the first closing marker after it is replaced, and scanning
resumes after the close); a matched region is replaced by the monospace,
whitespace-preserving block wrapping the re-parsed inner markup with
background colors stripped; an unmatched opening marker leaves the text
unchanged; and background stripping keeps exactly the declarations that are
not blank and do not start with background-color, in order, so foreground
color declarations survive. -/
theorem claim_C8_fenced_code :
    (∀ a b c : List Char, cleanBefore a → cleanBefore b →
      fenceSub (a ++ fenceMarker ++ b ++ fenceMarker ++ c)
        = a ++ fence_replacer b ++ fenceSub c) ∧
    (∀ a b : List Char, cleanBefore a → noMarker b →
      fenceSub (a ++ fenceMarker ++ b) = a ++ fenceMarker ++ b) ∧
    (∀ b : List Char, fence_replacer b
      = (monoDivOpen ++ serMany ((parseHtmlFragment ⟨b⟩).map bgPassN) ++ "</div>").data) ∧
    (∀ s : String, keptStyleDecls s
      = (splitSemis s).filter (fun p =>
          ¬ strStartsWith (pyStrip p) "background-color" ∧ pyStrip p ≠ "")) := by
  refine ⟨?_, ?_, fun b => rfl, ?_⟩
  · intro a b c ha hb
    have hassoc : a ++ fenceMarker ++ b ++ fenceMarker ++ c
        = a ++ fenceMarker ++ (b ++ fenceMarker ++ c) := by simp
    unfold fenceSub
    rw [hassoc, fenceSubF_matched _ a b c ha hb]
    have hclen : c.length < (a ++ fenceMarker ++ (b ++ fenceMarker ++ c)).length := by
      simp [fenceMarker]
      omega
    rw [fenceSubF_congr _ (c.length + 1) c hclen (by omega)]
  · intro a b ha hb
    unfold fenceSub
    exact fenceSubF_unmatched _ a b ha hb
  · intro s
    unfold keptStyleDecls
    simp only [List.filter_filter]
    apply List.filter_congr
    intro p hp
    by_cases h1 : strStartsWith (pyStrip p) "background-color" <;>
      by_cases h2 : pyStrip p = "" <;> simp [h1, h2]

set_option maxRecDepth 8000 in
/-- Witness for claim C8: a concrete matched fence pair followed by plain
text, an unmatched opening fence, a fenced span whose background color is
stripped while its foreground color survives, and the declaration filter on
a mixed style string. -/
theorem claim_C8_witness :
    fenceSub ("x".data ++ fenceMarker ++ "y".data ++ fenceMarker ++ "z".data)
      = "x".data ++ fence_replacer "y".data ++ fenceSub "z".data ∧
    fenceSub ("u".data ++ fenceMarker ++ "v".data) = "u".data ++ fenceMarker ++ "v".data ∧
    String.mk (fence_replacer "<span style=\"color:blue;background-color:red\">A</span>".data)
      = monoDivOpen ++ "<span style=\"color:blue\">A</span>" ++ "</div>" ∧
    keptStyleDecls "color:blue;background-color:red" = ["color:blue"] := by
  refine ⟨claim_C8_fenced_code.1 _ _ _ (by decide) (by decide),
    claim_C8_fenced_code.2.1 _ _ (by decide) (by decide),
    by decide,
    (claim_C8_fenced_code.2.2.2 "color:blue;background-color:red").trans (by decide)⟩

end NotionConv
